import Mathlib

/-
Verification of the session / transfer control layer of the ios-p2p-link
application against its specification.

The definitions below are a shallow embedding of src/App.tsx (the first,
authoritative version, whose line numbers the claims cite) together with
the variant functions of src/unnamed/part_001 where a claim cites them.
Binary payloads are modelled as lists of bytes (List Nat); the JavaScript
sparse array used for chunk reassembly is modelled as a duplicate-free
association list from chunk index to content; React state setters are
modelled as explicit state passing; asynchronous side effects (media
acquisition, the media-call transport, track stopping) are modelled as
emitted actions.
-/

namespace P2P

/-! ## String constants used by the program -/

def emptyStr : String := ""
def acceptStr : String := "ACCEPT"
def extJpg : String := ".jpg"
def extJpeg : String := ".jpeg"
def extPng : String := ".png"
def extGif : String := ".gif"

/-! ## Message protocol (src/types.ts plus the kinds used by src/App.tsx) -/

inductive MessageType where
  | TEXT
  | IMAGE
  | VIDEO_FILE
  | SYSTEM
  | CHUNK
  | CALL_REQUEST
  | CALL_RESPONSE
deriving DecidableEq, Repr

inductive ConnectionStatus where
  | DISCONNECTED
  | CONNECTING
  | CONNECTED
  | ERROR
deriving DecidableEq, Repr

/-- Tagged model of the dynamically typed `content` field of a ChatMessage:
a text string, raw binary (an ArrayBuffer chunk), an assembled binary Blob,
or null (control messages). -/
inductive MsgContent where
  | str (s : String)
  | bin (b : List Nat)
  | blobC (b : List Nat)
  | nullC
deriving DecidableEq, Repr

structure ChatMessage where
  id : String
  senderId : String
  type : MessageType
  content : MsgContent
  timestamp : Nat
  fileName : Option String := none
  transferId : Option String := none
  chunkIndex : Option Nat := none
  totalChunks : Option Nat := none
deriving DecidableEq, Repr

/-! ## Association-list maps

JavaScript object maps (`incomingChunks.current`, `transferProgress`) and
the sparse chunk array are modelled as duplicate-free association lists.
`setKey` is property assignment, `getKey` is property lookup and `delKey`
is the `delete` operator. -/

def setKey {κ ν : Type} [DecidableEq κ] : List (κ × ν) → κ → ν → List (κ × ν)
  | [], k, v => [(k, v)]
  | (k', v') :: rest, k, v =>
    if k' = k then (k, v) :: rest else (k', v') :: setKey rest k v

def getKey {κ ν : Type} [DecidableEq κ] : List (κ × ν) → κ → Option ν
  | [], _ => none
  | (k', v') :: rest, k => if k' = k then some v' else getKey rest k

def delKey {κ ν : Type} [DecidableEq κ] : List (κ × ν) → κ → List (κ × ν)
  | [], _ => []
  | (k', v') :: rest, k =>
    if k' = k then delKey rest k else (k', v') :: delKey rest k

@[simp] theorem getKey_nil {κ ν : Type} [DecidableEq κ] (k : κ) :
    getKey ([] : List (κ × ν)) k = none := rfl

@[simp] theorem getKey_cons {κ ν : Type} [DecidableEq κ] (k' : κ) (v' : ν) (rest : List (κ × ν)) (k : κ) :
    getKey ((k', v') :: rest) k = if k' = k then some v' else getKey rest k := rfl

theorem getKey_setKey_self {κ ν : Type} [DecidableEq κ] (m : List (κ × ν)) (k : κ) (v : ν) :
    getKey (setKey m k v) k = some v := by
  induction m with
  | nil => simp [setKey]
  | cons hd tl ih =>
    obtain ⟨k', v'⟩ := hd
    by_cases h : k' = k <;> simp [setKey, h, ih]

theorem getKey_setKey_ne {κ ν : Type} [DecidableEq κ] (m : List (κ × ν)) (k k' : κ) (v : ν)
    (h : k ≠ k') : getKey (setKey m k v) k' = getKey m k' := by
  induction m with
  | nil => simp [setKey, getKey, h]
  | cons hd tl ih =>
    obtain ⟨k₀, v₀⟩ := hd
    by_cases h₀ : k₀ = k <;> simp [setKey, h₀, getKey, ih]
    · subst h₀; simp [h]

theorem setKey_fresh {κ ν : Type} [DecidableEq κ] (m : List (κ × ν)) (k : κ) (v : ν)
    (h : getKey m k = none) : setKey m k v = m ++ [(k, v)] := by
  induction m with
  | nil => simp [setKey]
  | cons hd tl ih =>
    obtain ⟨k₀, v₀⟩ := hd
    by_cases h₀ : k₀ = k
    · simp [getKey, h₀] at h
    · simp [setKey, h₀]
      exact ih (by simpa [getKey, h₀] using h)

theorem setKey_eq_self {κ ν : Type} [DecidableEq κ] (m : List (κ × ν)) (k : κ) (v : ν)
    (h : getKey m k = some v) : setKey m k v = m := by
  induction m with
  | nil => simp [getKey] at h
  | cons hd tl ih =>
    obtain ⟨k₀, v₀⟩ := hd
    by_cases h₀ : k₀ = k
    · simp [getKey, h₀] at h
      simp [setKey, h₀, h]
    · simp [getKey, h₀] at h
      simp [setKey, h₀, ih h]

theorem length_setKey_of_mem {κ ν : Type} [DecidableEq κ] (m : List (κ × ν)) (k : κ) (v v₀ : ν)
    (h : getKey m k = some v₀) : (setKey m k v).length = m.length := by
  induction m with
  | nil => simp [getKey] at h
  | cons hd tl ih =>
    obtain ⟨k₁, v₁⟩ := hd
    by_cases h₁ : k₁ = k
    · simp [setKey, h₁]
    · simp [getKey, h₁] at h
      simp [setKey, h₁, ih h]

theorem length_setKey_fresh {κ ν : Type} [DecidableEq κ] (m : List (κ × ν)) (k : κ) (v : ν)
    (h : getKey m k = none) : (setKey m k v).length = m.length + 1 := by
  rw [setKey_fresh m k v h]; simp

@[simp] theorem delKey_nil {κ ν : Type} [DecidableEq κ] (k : κ) :
    delKey ([] : List (κ × ν)) k = [] := rfl

theorem delKey_singleton {κ ν : Type} [DecidableEq κ] (k : κ) (v : ν) :
    delKey [(k, v)] k = [] := by simp [delKey]

theorem mem_setKey {κ ν : Type} [DecidableEq κ] (m : List (κ × ν)) (k : κ) (v : ν) (p : κ × ν)
    (h : p ∈ setKey m k v) : p = (k, v) ∨ p ∈ m := by
  induction m with
  | nil => simp [setKey] at h; simp [h]
  | cons hd tl ih =>
    obtain ⟨k₀, v₀⟩ := hd
    by_cases h₀ : k₀ = k
    · simp [setKey, h₀] at h
      rcases h with h | h
      · exact Or.inl h
      · exact Or.inr (List.mem_cons_of_mem _ h)
    · simp [setKey, h₀] at h
      rcases h with h | h
      · exact Or.inr (by simp [h])
      · rcases ih h with h' | h'
        · exact Or.inl h'
        · exact Or.inr (List.mem_cons_of_mem _ h')

theorem getKey_mem {κ ν : Type} [DecidableEq κ] (m : List (κ × ν)) (k : κ) (v : ν)
    (h : getKey m k = some v) : (k, v) ∈ m := by
  induction m with
  | nil => simp [getKey] at h
  | cons hd tl ih =>
    obtain ⟨k₀, v₀⟩ := hd
    by_cases h₀ : k₀ = k
    · simp [getKey, h₀] at h
      simp [h₀, h]
    · simp [getKey, h₀] at h
      exact List.mem_cons_of_mem _ (ih h)

/-! ## Transfer Manager, receive side (src/App.tsx, handleIncomingChunk) -/

/-- Per-transfer reassembly state: the JS `{ chunks: any[], total }` record.
The sparse array `chunks` is modelled as a duplicate-free association list
from chunk index to the stored content. -/
structure TransferSt where
  chunks : List (Nat × MsgContent)
  total : Nat
deriving DecidableEq, Repr

/-- Length of the JS sparse array: one past the largest populated index
(0 when no index was ever assigned). -/
def jsArrayLength (m : List (Nat × MsgContent)) : Nat :=
  m.foldr (fun p acc => max (p.1 + 1) acc) 0

/-- Bytes of the string "undefined": a hole of a sparse JS array is read as
undefined, which the Blob constructor stringifies. -/
def undefinedBytes : List Nat := [117, 110, 100, 101, 102, 105, 110, 101, 100]

/-- Bytes of the string "null": the Blob constructor stringifies a null part. -/
def nullBytes : List Nat := [110, 117, 108, 108]

/-- Bytes a Blob part contributes: binary parts contribute their bytes,
string parts their character codes, null the string "null". -/
def contentBytes : MsgContent → List Nat
  | .bin b => b
  | .blobC b => b
  | .str s => s.data.map Char.toNat
  | .nullC => nullBytes

/-- The `new Blob(chunks)` construction: iterate the sparse array from
index 0 to its length, concatenating the bytes of each part; a hole reads
as undefined and contributes the string "undefined". -/
def blobConcat (m : List (Nat × MsgContent)) : List Nat :=
  ((List.range (jsArrayLength m)).map (fun i =>
    match getKey m i with
    | some c => contentBytes c
    | none => undefinedBytes)).flatten

/-- suffix test on character lists (structural, so that the kernel can
evaluate it): l ends with the given suffix. -/
def endsWithChars (l suffix : List Char) : Bool :=
  List.isPrefixOf suffix.reverse l.reverse

/-- File-name classification of a completed transfer
(`msg.fileName?.match(/\.(jpg|jpeg|png|gif)$/i)` in handleIncomingChunk):
the case-insensitive suffix test for the four image extensions, performed
on the lowercased character sequence of the file name (the /i flag folds
only ASCII letters onto these ASCII patterns, which per-character
Char.toLower matches). -/
def hasImageExt (n : String) : Bool :=
  endsWithChars (n.data.map Char.toLower) extJpg.data
  || endsWithChars (n.data.map Char.toLower) extJpeg.data
  || endsWithChars (n.data.map Char.toLower) extPng.data
  || endsWithChars (n.data.map Char.toLower) extGif.data

def classifyByName (fn : Option String) : MessageType :=
  match fn with
  | some n => if hasImageExt n then .IMAGE else .VIDEO_FILE
  | none => .VIDEO_FILE

/-- The `finalMsg` handleIncomingChunk emits on completion: the incoming
envelope with its type replaced by the file-name classification and its
content replaced by the assembled Blob. -/
def completedMsg (msg : ChatMessage) (chunks1 : List (Nat × MsgContent)) : ChatMessage :=
  { msg with type := classifyByName msg.fileName, content := .blobC (blobConcat chunks1) }

/-- Emitted side effects of the call-negotiation code, modelled explicitly:
media acquisition, the media-call transport invocation, track stopping,
call-handle closing, and envelope sends. -/
inductive Action where
  | stopTracks
  | closeCall
  | initCall
  | acquireMedia
  | invokeMediaCall
  | acquireFail
  | sendCallRequest
deriving DecidableEq, BEq, Repr

/-- The React component state of src/App.tsx that the claims touch.
Streams and the media-call handle are modelled by opaque numeric ids;
`call` is the callRef handle together with its open flag. -/
structure AppSt where
  messages : List ChatMessage
  transferProgress : List (String × Nat)
  incomingChunks : List (String × TransferSt)
  status : ConnectionStatus
  activeTargetId : String
  isInCall : Bool
  isIncomingCall : Bool
  localStream : Option Nat
  remoteStream : Option Nat
  call : Option Bool
deriving DecidableEq, Repr

def emptySt : AppSt :=
  { messages := [], transferProgress := [], incomingChunks := [],
    status := .DISCONNECTED, activeTargetId := emptyStr,
    isInCall := false, isIncomingCall := false,
    localStream := none, remoteStream := none, call := none }

/-- handleIncomingChunk (src/App.tsx lines 144-172). Creates the transfer
record on the first chunk, writes the content into `chunks[msg.chunkIndex]`,
recounts the populated slots (`Object.keys(...).length`), updates the
progress entry, and on `received === msg.totalChunks` emits the assembled
Blob as an IMAGE or VIDEO_FILE message and discards the record and its
progress entry. Progress is computed with natural division in place of
`Math.floor` of the float quotient. -/
def handleIncomingChunk (st : AppSt) (msg : ChatMessage) : AppSt :=
  let tId := msg.transferId.getD emptyStr
  let tot := msg.totalChunks.getD 0
  let cur := (getKey st.incomingChunks tId).getD { chunks := [], total := tot }
  let chunks1 := setKey cur.chunks (msg.chunkIndex.getD 0) msg.content
  let cur1 : TransferSt := { cur with chunks := chunks1 }
  let received := chunks1.length
  let progress := received * 100 / tot
  let st1 : AppSt := { st with
    transferProgress := setKey st.transferProgress tId progress,
    incomingChunks := setKey st.incomingChunks tId cur1 }
  if received = tot then
    { st1 with
      messages := st1.messages ++ [completedMsg msg chunks1],
      incomingChunks := delKey st1.incomingChunks tId,
      transferProgress := delKey st1.transferProgress tId }
  else st1

/-! ## Transfer Manager, send side (src/App.tsx, sendFile) -/

def CHUNK_SIZE : Nat := 16384

/-- Math.ceil(len / CHUNK_SIZE), the `totalChunks` computed by sendFile. -/
def numChunks (len : Nat) : Nat := (len + CHUNK_SIZE - 1) / CHUNK_SIZE

/-- arrayBuffer.slice(i * CHUNK_SIZE, min((i + 1) * CHUNK_SIZE, len)). -/
def chunkSlice (payload : List Nat) (i : Nat) : List Nat :=
  (payload.drop (i * CHUNK_SIZE)).take CHUNK_SIZE

/-- The CHUNK envelope sendFile builds for slice i (the per-envelope uuid
and timestamp are abstracted to fixed values; no claim reads them). -/
def mkChunkMsg (senderId tid : String) (fn : Option String) (payload : List Nat) (i : Nat) :
    ChatMessage :=
  { id := emptyStr, senderId := senderId, type := .CHUNK,
    content := .bin (chunkSlice payload i), timestamp := 0,
    fileName := fn, transferId := some tid,
    chunkIndex := some i, totalChunks := some (numChunks payload.length) }

/-- The envelopes emitted by the sendFile loop of src/App.tsx (lines
207-230): one CHUNK per index 0 ≤ i < totalChunks, in index order; the
loop body contains no connection-open check. -/
def sendChunks (senderId tid : String) (fn : Option String) (payload : List Nat) :
    List ChatMessage :=
  (List.range (numChunks payload.length)).map (mkChunkMsg senderId tid fn payload)

theorem CHUNK_SIZE_pos : 0 < CHUNK_SIZE := by decide

@[simp] theorem numChunks_zero : numChunks 0 = 0 := by decide

theorem numChunks_of_le {len : Nat} (h1 : 1 ≤ len) (h2 : len ≤ CHUNK_SIZE) :
    numChunks len = 1 := by
  unfold numChunks
  rw [Nat.div_eq_of_lt_le] <;> unfold CHUNK_SIZE at * <;> omega

theorem numChunks_of_gt {len : Nat} (h : CHUNK_SIZE < len) :
    numChunks len = numChunks (len - CHUNK_SIZE) + 1 := by
  unfold numChunks
  have he : len + CHUNK_SIZE - 1 = ((len - CHUNK_SIZE) + CHUNK_SIZE - 1) + CHUNK_SIZE := by
    have := CHUNK_SIZE_pos; omega
  rw [he, Nat.add_div_right _ CHUNK_SIZE_pos]

theorem numChunks_pos {len : Nat} (h : 1 ≤ len) : 1 ≤ numChunks len := by
  by_cases hle : len ≤ CHUNK_SIZE
  · rw [numChunks_of_le h hle]
  · rw [numChunks_of_gt (by omega)]; omega

theorem chunkSlice_zero (l : List Nat) : chunkSlice l 0 = l.take CHUNK_SIZE := by
  simp [chunkSlice]

theorem chunkSlice_succ (l : List Nat) (i : Nat) :
    chunkSlice l (i + 1) = chunkSlice (l.drop CHUNK_SIZE) i := by
  unfold chunkSlice
  rw [List.drop_drop, Nat.succ_mul, Nat.add_comm (i * CHUNK_SIZE) CHUNK_SIZE]

/-- The slices sendFile cuts are a partition of the payload: concatenated in
index order they reproduce the payload byte for byte. -/
theorem chunkSlice_flatten (l : List Nat) :
    ((List.range (numChunks l.length)).map (chunkSlice l)).flatten = l := by
  have main : ∀ (n : Nat) (l : List Nat), l.length = n →
      ((List.range (numChunks l.length)).map (chunkSlice l)).flatten = l := by
    intro n
    induction n using Nat.strong_induction_on with
    | _ n ih =>
      intro l hl
      by_cases h0 : l.length = 0
      · have hnil : l = [] := List.length_eq_zero.mp h0
        subst hnil; rfl
      · by_cases hle : l.length ≤ CHUNK_SIZE
        · rw [numChunks_of_le (by omega) hle]
          have hr1 : List.range 1 = [0] := rfl
          rw [hr1]
          simp only [List.map_cons, List.map_nil, List.flatten_cons,
            List.flatten_nil, List.append_nil, chunkSlice_zero]
          exact List.take_of_length_le hle
        · push_neg at hle
          rw [numChunks_of_gt hle, List.range_succ_eq_map, List.map_cons, List.map_map]
          have hcongr :
              (List.range (numChunks (l.length - CHUNK_SIZE))).map (chunkSlice l ∘ Nat.succ) =
              (List.range (numChunks (l.length - CHUNK_SIZE))).map (chunkSlice (l.drop CHUNK_SIZE)) := by
            apply List.map_congr_left
            intro a _
            exact chunkSlice_succ l a
          have hdl : (l.drop CHUNK_SIZE).length = l.length - CHUNK_SIZE := by
            simp
          have hrec := ih (l.length - CHUNK_SIZE)
            (by have := CHUNK_SIZE_pos; omega) (l.drop CHUNK_SIZE) hdl
          rw [hdl] at hrec
          rw [hcongr, List.flatten_cons, hrec, chunkSlice_zero, List.take_append_drop]
  exact main l.length l rfl

/-! ## Reassembly of a fully populated sparse array -/

theorem getKey_map_self {ν : Type} (g : Nat → ν) (K : List Nat) (i : Nat) (h : i ∈ K) :
    getKey (K.map (fun j => (j, g j))) i = some (g i) := by
  induction K with
  | nil => simp at h
  | cons k tl ih =>
    by_cases hk : k = i
    · subst hk; simp [getKey]
    · have : i ∈ tl := by
        rcases List.mem_cons.mp h with h' | h'
        · exact absurd h'.symm hk
        · exact h'
      simp [getKey, hk, ih this]

theorem foldr_max_range (T b : Nat) :
    List.foldr (fun k acc => max (k + 1) acc) b (List.range T) = max T b := by
  induction T generalizing b with
  | zero => simp
  | succ n ih =>
    rw [List.range_succ, List.foldr_append]
    simp only [List.foldr_cons, List.foldr_nil]
    rw [ih]
    omega

theorem jsArrayLength_keys_perm (m : List (Nat × MsgContent)) (T : Nat)
    (h : (m.map Prod.fst).Perm (List.range T)) : jsArrayLength m = T := by
  haveI : LeftCommutative (fun (k acc : Nat) => max (k + 1) acc) := ⟨by intro a b c; omega⟩
  unfold jsArrayLength
  have h1 : m.foldr (fun p acc => max (p.1 + 1) acc) 0 =
      (m.map Prod.fst).foldr (fun k acc => max (k + 1) acc) 0 := by
    rw [List.foldr_map]
  rw [h1, h.foldr_eq 0, foldr_max_range]
  omega

/-- Assembling a sparse array whose populated indices are exactly the chunk
indices 0..totalChunks-1, each holding its payload slice, yields the
original payload. -/
theorem blobConcat_map_perm (p : List Nat) (K : List Nat)
    (hK : K.Perm (List.range (numChunks p.length))) :
    blobConcat (K.map (fun j => (j, MsgContent.bin (chunkSlice p j)))) = p := by
  have hkeys : ∀ K' : List Nat,
      (K'.map (fun j => (j, MsgContent.bin (chunkSlice p j)))).map Prod.fst = K' := by
    intro K'
    induction K' with
    | nil => rfl
    | cons a t ih => simp only [List.map_cons]; rw [ih]
  have hlen : jsArrayLength (K.map (fun j => (j, MsgContent.bin (chunkSlice p j)))) =
      numChunks p.length := by
    apply jsArrayLength_keys_perm
    rw [hkeys K]; exact hK
  rw [blobConcat, hlen]
  have hmap : (List.range (numChunks p.length)).map (fun i =>
      match getKey (K.map (fun j => (j, MsgContent.bin (chunkSlice p j)))) i with
      | some c => contentBytes c
      | none => undefinedBytes) =
      (List.range (numChunks p.length)).map (chunkSlice p) := by
    apply List.map_congr_left
    intro a ha
    have hmem : a ∈ K := hK.mem_iff.mpr ha
    rw [getKey_map_self (fun j => MsgContent.bin (chunkSlice p j)) K a hmem]
    rfl
  rw [hmap, chunkSlice_flatten]

theorem getKey_map_none {ν : Type} (g : Nat → ν) (K : List Nat) (i : Nat) (h : i ∉ K) :
    getKey (K.map (fun j => (j, g j))) i = none := by
  induction K with
  | nil => rfl
  | cons k tl ih =>
    have hk : k ≠ i := fun he => h (by simp [he])
    have htl : i ∉ tl := fun he => h (by simp [he])
    simp [getKey, hk, ih htl]

/-- One unfolding of handleIncomingChunk with the envelope fields and the
current transfer record resolved. -/
theorem handleIncomingChunk_step (st : AppSt) (msg : ChatMessage)
    (tid : String) (i tot : Nat) (cur : TransferSt)
    (htid : msg.transferId = some tid)
    (hidx : msg.chunkIndex = some i)
    (htot : msg.totalChunks = some tot)
    (hcur : (getKey st.incomingChunks tid).getD { chunks := [], total := tot } = cur) :
    handleIncomingChunk st msg =
      (if (setKey cur.chunks i msg.content).length = tot then
        { st with
          messages := st.messages ++ [completedMsg msg (setKey cur.chunks i msg.content)],
          incomingChunks := delKey (setKey st.incomingChunks tid
            { cur with chunks := setKey cur.chunks i msg.content }) tid,
          transferProgress := delKey (setKey st.transferProgress tid
            ((setKey cur.chunks i msg.content).length * 100 / tot)) tid }
      else
        { st with
          transferProgress := setKey st.transferProgress tid
            ((setKey cur.chunks i msg.content).length * 100 / tot),
          incomingChunks := setKey st.incomingChunks tid
            { cur with chunks := setKey cur.chunks i msg.content } }) := by
  unfold handleIncomingChunk
  rw [htid, hidx, htot]
  simp only [Option.getD_some, hcur]

/-- The reassembly record built after receiving the chunks with indices P
(in arrival order): slot j holds slice j of the payload. -/
def slotsOf (p : List Nat) (P : List Nat) : List (Nat × MsgContent) :=
  P.map (fun j => (j, MsgContent.bin (chunkSlice p j)))

theorem slotsOf_length (p : List Nat) (P : List Nat) : (slotsOf p P).length = P.length := by
  simp [slotsOf]

def cIdx (m : ChatMessage) : Nat := m.chunkIndex.getD 0

/-- Main receive-loop invariant: folding handleIncomingChunk over the
remaining chunk envelopes of a transfer, after the chunks with indices P
have already been stored, ends with exactly one emitted message carrying
the reassembled payload and with the transfer record discarded. -/
theorem recv_fold (s tid : String) (fn : Option String) (p : List Nat) :
    ∀ (ms : List ChatMessage) (P : List Nat) (st : AppSt),
      (∀ m ∈ ms, m = mkChunkMsg s tid fn p (cIdx m)) →
      (P ++ ms.map cIdx).Perm (List.range (numChunks p.length)) →
      ms ≠ [] →
      st.messages = [] →
      st.incomingChunks =
        (if P = [] then []
         else [(tid, { chunks := slotsOf p P, total := numChunks p.length })]) →
      ∃ fm, (ms.foldl handleIncomingChunk st).messages = [fm] ∧
        fm.content = .blobC p ∧
        (ms.foldl handleIncomingChunk st).incomingChunks = [] := by
  intro ms
  induction ms with
  | nil => intro P st _ _ hne _ _; exact absurd rfl hne
  | cons m rest ih =>
    intro P st hmem hperm _ hmsgs hic
    have hm : m = mkChunkMsg s tid fn p (cIdx m) := hmem m (List.mem_cons_self m rest)
    set T := numChunks p.length with hT
    set i := cIdx m with hi
    -- structural facts about the index multiset
    have hnodup : (P ++ (m :: rest).map cIdx).Nodup :=
      hperm.nodup_iff.mpr (List.nodup_range T)
    have hmapcons : (m :: rest).map cIdx = i :: rest.map cIdx := by simp
    rw [hmapcons] at hperm hnodup
    have hiP : i ∉ P := by
      rcases List.nodup_append.mp hnodup with ⟨_, _, hdisj⟩
      intro hin
      exact hdisj hin (by simp)
    -- the current record before processing m
    have hcur : (getKey st.incomingChunks tid).getD { chunks := [], total := T } =
        { chunks := slotsOf p P, total := T } := by
      by_cases hP : P = []
      · subst hP; rw [hic]; simp [slotsOf]
      · rw [hic]; simp [hP, getKey]
    have hstep := handleIncomingChunk_step st m tid i T
      { chunks := slotsOf p P, total := T }
      (by rw [hm]; rfl) (by rw [hi, cIdx]; cases hx : m.chunkIndex with
            | none => rw [hm] at hx; exact absurd hx (by simp [mkChunkMsg])
            | some v => simp [hx]
          ) (by rw [hm]; rfl) hcur
    have hcontent : m.content = MsgContent.bin (chunkSlice p i) := by
      rw [hm]; rfl
    -- the updated slot map
    have hfresh : getKey (slotsOf p P) i = none :=
      getKey_map_none _ P i hiP
    have hset : setKey (slotsOf p P) i m.content = slotsOf p (P ++ [i]) := by
      rw [hcontent, setKey_fresh _ _ _ hfresh, slotsOf, slotsOf, List.map_append]
      rfl
    have hsetlen : (setKey (slotsOf p P) i m.content).length = P.length + 1 := by
      rw [hset, slotsOf_length]; simp
    -- the incomingChunks map after the setKey, in both P cases
    have hicset : setKey st.incomingChunks tid
        { chunks := setKey (slotsOf p P) i m.content, total := T } =
        [(tid, { chunks := slotsOf p (P ++ [i]), total := T })] := by
      rw [hset]
      by_cases hP : P = []
      · subst hP; rw [hic]; rfl
      · rw [hic]; simp [hP, setKey]
    by_cases hdone : P.length + 1 = T
    · -- this chunk completes the transfer: rest must be empty
      have hlen : P.length + ((rest.map cIdx).length + 1) = T := by
        have hq := hperm.length_eq
        rw [List.length_append, List.length_cons, List.length_range] at hq
        exact hq
      have hrest : rest = [] := by
        have h0 : (rest.map cIdx).length = 0 := by omega
        exact List.map_eq_nil_iff.mp (List.length_eq_zero.mp h0)
      subst hrest
      have hPi : (P ++ [i]).Perm (List.range T) := by
        simpa using hperm
      rw [List.foldl_cons, List.foldl_nil, hstep]
      rw [if_pos (by rw [hsetlen]; exact hdone)]
      refine ⟨completedMsg m (setKey (slotsOf p P) i m.content), ?_, ?_, ?_⟩
      · show st.messages ++ [completedMsg m (setKey (slotsOf p P) i m.content)] = _
        rw [hmsgs]; rfl
      · show (completedMsg m (setKey (slotsOf p P) i m.content)).content = _
        simp only [completedMsg]
        rw [hset, slotsOf, blobConcat_map_perm p (P ++ [i]) hPi]
      · show delKey (setKey st.incomingChunks tid
          { chunks := setKey (slotsOf p P) i m.content, total := T }) tid = []
        rw [hicset, delKey_singleton]
    · -- transfer still incomplete: apply the induction hypothesis
      have hrestne : rest ≠ [] := by
        intro hr
        subst hr
        have := hperm.length_eq
        simp at this
        omega
      rw [List.foldl_cons, hstep, if_neg (by rw [hsetlen]; exact hdone)]
      apply ih (P ++ [i])
      · intro m' hm'; exact hmem m' (List.mem_cons_of_mem _ hm')
      · have : (P ++ [i]) ++ rest.map cIdx = P ++ i :: rest.map cIdx := by simp
        rw [this]; exact hperm
      · exact hrestne
      · simpa using hmsgs
      · have hne : P ++ [i] ≠ [] := by simp
        rw [if_neg hne]
        exact hicset

/-! ## Sample inputs used by witnesses and counterexamples -/

def sampleSender : String := "S"
def sampleTid : String := "T1"
def samplePng : String := "a.PNG"
def sampleMp4 : String := "v.mp4"

/-! ## Claim C1 -/

/-- Claim C1, amended: for every payload the send path emits exactly
totalChunks = ceil(S/C) CHUNK envelopes whose contents are the contiguous,
non-overlapping slices of the payload in 0-based index order (their
in-order concatenation is the payload), and for every NONEMPTY payload,
for every arrival permutation of those chunks, the receive path assembles
a payload byte-for-byte identical to the original.  (The original claim
also asserted reassembly for the empty payload, where no chunk and hence
no completed message is ever produced; see the counterexample.) -/
theorem spec_C1 (senderId tid : String) (fn : Option String) (payload : List Nat) :
    (sendChunks senderId tid fn payload).length = numChunks payload.length
    ∧ (∀ i, i < numChunks payload.length →
        (sendChunks senderId tid fn payload)[i]? = some (mkChunkMsg senderId tid fn payload i))
    ∧ ((List.range (numChunks payload.length)).map (chunkSlice payload)).flatten = payload
    ∧ (payload ≠ [] → ∀ ms : List ChatMessage, ms.Perm (sendChunks senderId tid fn payload) →
        ∃ fm, (ms.foldl handleIncomingChunk emptySt).messages = [fm]
          ∧ fm.content = .blobC payload
          ∧ (ms.foldl handleIncomingChunk emptySt).incomingChunks = []) := by
  refine ⟨by simp [sendChunks], ?_, chunkSlice_flatten payload, ?_⟩
  · intro i hi
    rw [sendChunks, List.getElem?_map, List.getElem?_range hi]
    rfl
  · intro hp ms hperm
    have hTpos : 1 ≤ numChunks payload.length := by
      apply numChunks_pos
      cases payload with
      | nil => exact absurd rfl hp
      | cons a t => simp
    have hsendmap : (sendChunks senderId tid fn payload).map cIdx =
        List.range (numChunks payload.length) := by
      rw [sendChunks, List.map_map]
      have : ∀ a ∈ List.range (numChunks payload.length),
          (cIdx ∘ mkChunkMsg senderId tid fn payload) a = a := by
        intro a _; rfl
      rw [List.map_congr_left this]
      exact List.map_id _
    apply recv_fold senderId tid fn payload ms [] emptySt
    · intro m hm
      have hm' : m ∈ sendChunks senderId tid fn payload := hperm.mem_iff.mp hm
      rcases List.mem_map.mp hm' with ⟨a, _, ha⟩
      rw [← ha]; rfl
    · rw [List.nil_append, ← hsendmap]
      exact hperm.map cIdx
    · intro hnil
      subst hnil
      have := hperm.length_eq
      rw [List.length_nil, sendChunks, List.length_map, List.length_range] at this
      omega
    · rfl
    · rfl

/-- Claim C1 as stated fails at payload size S = 0: totalChunks = 0, the
sender emits no CHUNK envelope, and the receive path (the fold over the
empty arrival sequence) never appends any assembled message, so the
original (empty) payload is never reproduced on the receiving side. -/
theorem spec_C1_counterexample :
    sendChunks sampleSender sampleTid none ([] : List Nat) = []
    ∧ (([] : List ChatMessage).foldl handleIncomingChunk emptySt).messages = [] :=
  ⟨rfl, rfl⟩

/-- Witness for spec_C1 at the concrete payload [1, 2, 3]. -/
theorem spec_C1_witness :
    ([1, 2, 3] : List Nat) ≠ []
    ∧ ∃ fm, ((sendChunks sampleSender sampleTid none [1, 2, 3]).foldl
          handleIncomingChunk emptySt).messages = [fm]
        ∧ fm.content = .blobC [1, 2, 3]
        ∧ ((sendChunks sampleSender sampleTid none [1, 2, 3]).foldl
            handleIncomingChunk emptySt).incomingChunks = [] := by
  refine ⟨by decide, ?_⟩
  exact (spec_C1 sampleSender sampleTid none [1, 2, 3]).2.2.2 (by decide) _ (List.Perm.refl _)

/-! ## Claim C2: helper lemmas about arbitrary reassembly maps -/

theorem getKey_eq_none_iff {κ ν : Type} [DecidableEq κ] (m : List (κ × ν)) (k : κ) :
    getKey m k = none ↔ k ∉ m.map Prod.fst := by
  induction m with
  | nil => simp
  | cons hd tl ih =>
    obtain ⟨k₀, v₀⟩ := hd
    by_cases h₀ : k₀ = k
    · subst h₀; simp [getKey]
    · simp [getKey, h₀, ih, Ne.symm h₀]

theorem getKey_isSome_of_mem_keys {κ ν : Type} [DecidableEq κ] (m : List (κ × ν)) (k : κ)
    (h : k ∈ m.map Prod.fst) : ∃ v, getKey m k = some v := by
  cases hg : getKey m k with
  | none => exact absurd h ((getKey_eq_none_iff m k).mp hg)
  | some v => exact ⟨v, rfl⟩

theorem keys_setKey_of_mem {κ ν : Type} [DecidableEq κ] (m : List (κ × ν)) (k : κ) (v v₀ : ν)
    (h : getKey m k = some v₀) : (setKey m k v).map Prod.fst = m.map Prod.fst := by
  induction m with
  | nil => simp [getKey] at h
  | cons hd tl ih =>
    obtain ⟨k₁, v₁⟩ := hd
    by_cases h₁ : k₁ = k
    · subst h₁; simp [setKey]
    · simp [getKey, h₁] at h
      simp [setKey, h₁, ih h]

theorem nodupKeys_setKey {κ ν : Type} [DecidableEq κ] (m : List (κ × ν)) (k : κ) (v : ν)
    (h : (m.map Prod.fst).Nodup) : ((setKey m k v).map Prod.fst).Nodup := by
  cases hg : getKey m k with
  | none =>
    rw [setKey_fresh m k v hg, List.map_append]
    simp only [List.map_cons, List.map_nil]
    rw [List.nodup_append]
    refine ⟨h, List.nodup_singleton k, ?_⟩
    intro a ha hb
    rw [List.mem_singleton] at hb
    subst hb
    exact (getKey_eq_none_iff m a).mp hg ha
  | some v₀ => rw [keys_setKey_of_mem m k v v₀ hg]; exact h

theorem keys_perm_range (K : List Nat) (T : Nat) (hnd : K.Nodup) (hlt : ∀ k ∈ K, k < T)
    (hlen : K.length = T) : K.Perm (List.range T) := by
  have hsub : K ⊆ List.range T := fun k hk => List.mem_range.mpr (hlt k hk)
  exact (List.subperm_of_subset hnd hsub).perm_of_length_le (by rw [hlen, List.length_range])

/-- With the populated indices being exactly 0..T-1, the Blob is the
concatenation of the slot contents in index order. -/
theorem blobConcat_keys_perm (m : List (Nat × MsgContent)) (T : Nat)
    (h : (m.map Prod.fst).Perm (List.range T)) :
    blobConcat m = ((List.range T).map
      (fun i => contentBytes ((getKey m i).getD MsgContent.nullC))).flatten := by
  rw [blobConcat, jsArrayLength_keys_perm m T h]
  congr 1
  apply List.map_congr_left
  intro a ha
  have hmem : a ∈ m.map Prod.fst := h.mem_iff.mpr ha
  rcases getKey_isSome_of_mem_keys m a hmem with ⟨c, hc⟩
  rw [hc]
  rfl

/-- A slot value together with the incoming envelope that delivered it. -/
def slotSrc (R : List ChatMessage) (i : Nat) (c : MsgContent) : Prop :=
  ∃ m, m ∈ R ∧ m.chunkIndex = some i ∧ m.content = c

/-- A completed message that is sound with respect to the envelopes R of a
transfer with T chunks: its payload is the index-order concatenation of T
slot values, each of which was actually delivered by some envelope. -/
def emittedOk (R : List ChatMessage) (T : Nat) (fm : ChatMessage) : Prop :=
  ∃ g : Nat → MsgContent,
    fm.content = .blobC (((List.range T).map (fun i => contentBytes (g i))).flatten)
    ∧ ∀ i, i < T → slotSrc R i (g i)

/-- Invariant of an in-flight reassembly record: keys are distinct, within
range, and every stored slot was delivered by some envelope of R. -/
def tsOk (R : List ChatMessage) (T : Nat) (ts : TransferSt) : Prop :=
  (ts.chunks.map Prod.fst).Nodup
  ∧ ∀ pr ∈ ts.chunks, pr.1 < T ∧ slotSrc R pr.1 pr.2

/-- Receive-loop soundness invariant for one transferId: if every processed
envelope carries this transferId, total T and an in-range index, then every
message the fold ever emits is a sound completed message (full slot
coverage, index-order concatenation). -/
theorem c2_fold (tid : String) (T : Nat) (R : List ChatMessage) :
    ∀ (ms : List ChatMessage) (st : AppSt),
      (∀ m ∈ ms, (m.transferId = some tid ∧ m.totalChunks = some T ∧
         ∃ i, m.chunkIndex = some i ∧ i < T) ∧ m ∈ R) →
      (∀ fm ∈ st.messages, emittedOk R T fm) →
      (st.incomingChunks = [] ∨ ∃ ts, st.incomingChunks = [(tid, ts)] ∧ tsOk R T ts) →
      ∀ fm ∈ (ms.foldl handleIncomingChunk st).messages, emittedOk R T fm := by
  intro ms
  induction ms with
  | nil => intro st _ hmsg _; simpa using hmsg
  | cons m rest ih =>
    intro st hms hmsg hic
    obtain ⟨⟨htid, htot, i, hidx, hiT⟩, hmR⟩ := hms m (List.mem_cons_self m rest)
    have hone : ∃ ts₀ : TransferSt,
        tsOk R T ts₀ ∧
        (getKey st.incomingChunks tid).getD { chunks := [], total := T } = ts₀ ∧
        ∀ v : TransferSt, setKey st.incomingChunks tid v = [(tid, v)] := by
      rcases hic with h | ⟨ts, hts, hok⟩
      · refine ⟨{ chunks := [], total := T }, ⟨by simp, by simp⟩, by rw [h]; rfl, ?_⟩
        intro v; rw [h]; rfl
      · refine ⟨ts, hok, by rw [hts]; simp [getKey], ?_⟩
        intro v; rw [hts]; simp [setKey]
    obtain ⟨ts₀, hok, hcur, hsetic⟩ := hone
    have hstep := handleIncomingChunk_step st m tid i T ts₀ htid hidx htot hcur
    have hknd : ((setKey ts₀.chunks i m.content).map Prod.fst).Nodup :=
      nodupKeys_setKey _ _ _ hok.1
    have hentries : ∀ pr ∈ setKey ts₀.chunks i m.content, pr.1 < T ∧ slotSrc R pr.1 pr.2 := by
      intro pr hpr
      rcases mem_setKey _ _ _ _ hpr with h | h
      · subst h; exact ⟨hiT, ⟨m, hmR, hidx, rfl⟩⟩
      · exact hok.2 pr h
    have hok1 : tsOk R T { chunks := setKey ts₀.chunks i m.content, total := ts₀.total } :=
      ⟨hknd, hentries⟩
    rw [List.foldl_cons, hstep]
    by_cases hdone : (setKey ts₀.chunks i m.content).length = T
    · rw [if_pos hdone]
      apply ih
      · intro m' hm'; exact hms m' (List.mem_cons_of_mem _ hm')
      · intro fm hfm
        have hfm' : fm ∈ st.messages ++ [completedMsg m (setKey ts₀.chunks i m.content)] := hfm
        rcases List.mem_append.mp hfm' with h | h
        · exact hmsg fm h
        · rw [List.mem_singleton] at h
          subst h
          have hklt : ∀ k ∈ (setKey ts₀.chunks i m.content).map Prod.fst, k < T := by
            intro k hk
            rcases List.mem_map.mp hk with ⟨pr, hpr, hpk⟩
            rw [← hpk]
            exact (hentries pr hpr).1
          have hkperm : ((setKey ts₀.chunks i m.content).map Prod.fst).Perm (List.range T) :=
            keys_perm_range _ T hknd hklt (by rw [List.length_map]; exact hdone)
          refine ⟨fun j => (getKey (setKey ts₀.chunks i m.content) j).getD MsgContent.nullC,
            ?_, ?_⟩
          · show MsgContent.blobC (blobConcat (setKey ts₀.chunks i m.content)) = _
            rw [blobConcat_keys_perm _ T hkperm]
          · intro j hj
            have hjk : j ∈ (setKey ts₀.chunks i m.content).map Prod.fst :=
              hkperm.mem_iff.mpr (List.mem_range.mpr hj)
            rcases getKey_isSome_of_mem_keys _ j hjk with ⟨c, hc⟩
            simp only [hc, Option.getD_some]
            exact (hentries (j, c) (getKey_mem _ j c hc)).2
      · left
        show delKey (setKey st.incomingChunks tid
          { chunks := setKey ts₀.chunks i m.content, total := ts₀.total }) tid = []
        rw [hsetic, delKey_singleton]
    · rw [if_neg hdone]
      apply ih
      · intro m' hm'; exact hms m' (List.mem_cons_of_mem _ hm')
      · intro fm hfm; exact hmsg fm hfm
      · right
        refine ⟨{ chunks := setKey ts₀.chunks i m.content, total := ts₀.total }, ?_, hok1⟩
        show setKey st.incomingChunks tid
          { chunks := setKey ts₀.chunks i m.content, total := ts₀.total } = _
        rw [hsetic]

/-- Claim C2, amended: for every sequence of incoming CHUNK envelopes of
one transferId in which every envelope carries the same totalChunks = T
and an IN-RANGE chunkIndex < T, every completed message the receiver emits
carries the index-order concatenation of T slot values each of which was
delivered by some received envelope — so a completed message is emitted
only when every slot 0..T-1 is populated.  (The original claim also
covered out-of-range chunkIndex values, where the code emits a payload
with missing slots; see the counterexample.) -/
theorem spec_C2 (tid : String) (T : Nat) (ms : List ChatMessage)
    (hms : ∀ m ∈ ms, m.transferId = some tid ∧ m.totalChunks = some T ∧
      ∃ i, m.chunkIndex = some i ∧ i < T) :
    ∀ fm ∈ (ms.foldl handleIncomingChunk emptySt).messages,
      ∃ g : Nat → MsgContent,
        fm.content = .blobC (((List.range T).map (fun i => contentBytes (g i))).flatten)
        ∧ ∀ i, i < T → ∃ m, m ∈ ms ∧ m.chunkIndex = some i ∧ m.content = g i := by
  intro fm hfm
  have h := c2_fold tid T ms ms emptySt (fun m hm => ⟨hms m hm, hm⟩)
    (by intro fm h; simp [emptySt] at h) (Or.inl rfl) fm hfm
  obtain ⟨g, hg1, hg2⟩ := h
  exact ⟨g, hg1, fun i hi => hg2 i hi⟩

def c2m1 : ChatMessage :=
  { id := emptyStr, senderId := sampleSender, type := .CHUNK, content := .bin [7],
    timestamp := 0, fileName := some sampleMp4, transferId := some sampleTid,
    chunkIndex := some 0, totalChunks := some 2 }

def c2m2 : ChatMessage :=
  { id := emptyStr, senderId := sampleSender, type := .CHUNK, content := .bin [9],
    timestamp := 0, fileName := some sampleMp4, transferId := some sampleTid,
    chunkIndex := some 5, totalChunks := some 2 }

/-- Claim C2 as stated fails for out-of-range chunk indices: with
totalChunks = 2 and arriving chunk indices 0 and 5, the populated-slot
count reaches 2 and a completed message is emitted although slot 1 was
never populated (no received envelope carries chunkIndex 1). -/
theorem spec_C2_counterexample :
    ([c2m1, c2m2].foldl handleIncomingChunk emptySt).messages.length = 1
    ∧ c2m1.totalChunks = some 2 ∧ c2m2.totalChunks = some 2
    ∧ ∀ m ∈ [c2m1, c2m2], m.chunkIndex ≠ some 1 := by
  refine ⟨by decide, rfl, rfl, by decide⟩

def c2w1 : ChatMessage :=
  { id := emptyStr, senderId := sampleSender, type := .CHUNK, content := .bin [5],
    timestamp := 0, fileName := some sampleMp4, transferId := some sampleTid,
    chunkIndex := some 0, totalChunks := some 1 }

/-- Witness for spec_C2 at a concrete single-chunk transfer and its
concrete emitted message. -/
theorem spec_C2_witness :
    ∃ g : Nat → MsgContent,
      (completedMsg c2w1 [(0, MsgContent.bin [5])]).content
        = .blobC (((List.range 1).map (fun i => contentBytes (g i))).flatten)
      ∧ ∀ i, i < 1 → ∃ m, m ∈ [c2w1] ∧ m.chunkIndex = some i ∧ m.content = g i := by
  have hms : ∀ m ∈ [c2w1], m.transferId = some sampleTid ∧ m.totalChunks = some 1 ∧
      ∃ i, m.chunkIndex = some i ∧ i < 1 := by
    intro m hm
    rw [List.mem_singleton] at hm
    subst hm
    exact ⟨rfl, rfl, 0, rfl, by decide⟩
  have heq : ([c2w1].foldl handleIncomingChunk emptySt).messages
      = [completedMsg c2w1 [(0, MsgContent.bin [5])]] := by decide
  have hmem : completedMsg c2w1 [(0, MsgContent.bin [5])]
      ∈ ([c2w1].foldl handleIncomingChunk emptySt).messages := by
    rw [heq]; exact List.mem_singleton_self _
  exact spec_C2 sampleTid 1 [c2w1] hms _ hmem

/-! ## Claim C3 -/

/-- The messages and incomingChunks components of handleIncomingChunk
depend only on the messages and incomingChunks components of the input
state (not on the progress map). -/
theorem handleIncomingChunk_core (a b : AppSt) (m : ChatMessage)
    (hmsg : a.messages = b.messages) (hic : a.incomingChunks = b.incomingChunks) :
    (handleIncomingChunk a m).messages = (handleIncomingChunk b m).messages
    ∧ (handleIncomingChunk a m).incomingChunks = (handleIncomingChunk b m).incomingChunks := by
  unfold handleIncomingChunk
  simp only [hmsg, hic]
  constructor <;> (split <;> rfl)

theorem foldl_core_congr (ms : List ChatMessage) :
    ∀ (a b : AppSt), a.messages = b.messages → a.incomingChunks = b.incomingChunks →
      (ms.foldl handleIncomingChunk a).messages = (ms.foldl handleIncomingChunk b).messages := by
  induction ms with
  | nil => intro a b h _; simpa using h
  | cons m rest ih =>
    intro a b h1 h2
    rw [List.foldl_cons, List.foldl_cons]
    obtain ⟨hm, hi⟩ := handleIncomingChunk_core a b m h1 h2
    exact ih _ _ hm hi

/-- Claim C3: re-delivering a chunk whose (transferId, chunkIndex) slot is
already populated with the same content, while the transfer is still
in flight, leaves the reassembly state and the message stream unchanged,
and the finally assembled payload is the same as if the duplicate had not
been delivered. -/
theorem spec_C3 (st : AppSt) (msg : ChatMessage) (tid : String) (i T : Nat) (ts : TransferSt)
    (hent : getKey st.incomingChunks tid = some ts)
    (htid : msg.transferId = some tid)
    (hidx : msg.chunkIndex = some i)
    (htot : msg.totalChunks = some T)
    (hdup : getKey ts.chunks i = some msg.content)
    (hincomplete : ts.chunks.length ≠ T) :
    (handleIncomingChunk st msg).incomingChunks = st.incomingChunks
    ∧ (handleIncomingChunk st msg).messages = st.messages
    ∧ ∀ rest : List ChatMessage,
        ((msg :: rest).foldl handleIncomingChunk st).messages
          = (rest.foldl handleIncomingChunk st).messages := by
  have hcur : (getKey st.incomingChunks tid).getD { chunks := [], total := T } = ts := by
    rw [hent]; rfl
  have hstep := handleIncomingChunk_step st msg tid i T ts htid hidx htot hcur
  have hsk : setKey ts.chunks i msg.content = ts.chunks := setKey_eq_self _ _ _ hdup
  have hlen : (setKey ts.chunks i msg.content).length ≠ T := by rw [hsk]; exact hincomplete
  have hts : ({ chunks := setKey ts.chunks i msg.content, total := ts.total } : TransferSt)
      = ts := by rw [hsk]
  have hicset : setKey st.incomingChunks tid
      { chunks := setKey ts.chunks i msg.content, total := ts.total } = st.incomingChunks := by
    rw [hts]; exact setKey_eq_self _ _ _ hent
  refine ⟨?_, ?_, ?_⟩
  · rw [hstep, if_neg hlen]; exact hicset
  · rw [hstep, if_neg hlen]
  · intro rest
    rw [List.foldl_cons, hstep, if_neg hlen]
    exact foldl_core_congr rest _ st rfl hicset

def c3a : ChatMessage :=
  { id := emptyStr, senderId := sampleSender, type := .CHUNK, content := .bin [3],
    timestamp := 0, fileName := some sampleMp4, transferId := some sampleTid,
    chunkIndex := some 0, totalChunks := some 2 }

def c3b : ChatMessage :=
  { id := emptyStr, senderId := sampleSender, type := .CHUNK, content := .bin [4],
    timestamp := 0, fileName := some sampleMp4, transferId := some sampleTid,
    chunkIndex := some 1, totalChunks := some 2 }

/-- Witness for spec_C3: after chunk 0 of a 2-chunk transfer has arrived,
re-delivering it changes nothing, and the message stream after the final
chunk is the same with or without the duplicate. -/
theorem spec_C3_witness :
    (handleIncomingChunk (handleIncomingChunk emptySt c3a) c3a).incomingChunks
        = (handleIncomingChunk emptySt c3a).incomingChunks
    ∧ ((c3a :: [c3b]).foldl handleIncomingChunk (handleIncomingChunk emptySt c3a)).messages
        = ([c3b].foldl handleIncomingChunk (handleIncomingChunk emptySt c3a)).messages := by
  have h := spec_C3 (handleIncomingChunk emptySt c3a) c3a sampleTid 0 2
    { chunks := [(0, MsgContent.bin [3])], total := 2 }
    (by decide) rfl rfl rfl (by decide) (by decide)
  exact ⟨h.1, h.2.2 [c3b]⟩

/-! ## Claim C4 -/

/-- Claim C4, amended: a CHUNK envelope whose totalChunks field differs
from the recorded total is NOT rejected: its content is written into its
slot, the populated-slot count reflects it, and completion is decided
against the incoming envelope's own totalChunks field — the recorded
total (ts.total, arbitrary here) is never consulted. -/
theorem spec_C4 (st : AppSt) (msg : ChatMessage) (tid : String) (i Tmsg : Nat) (ts : TransferSt)
    (hent : getKey st.incomingChunks tid = some ts)
    (htid : msg.transferId = some tid)
    (hidx : msg.chunkIndex = some i)
    (htot : msg.totalChunks = some Tmsg) :
    getKey (setKey ts.chunks i msg.content) i = some msg.content
    ∧ ((handleIncomingChunk st msg).messages ≠ st.messages
        ↔ (setKey ts.chunks i msg.content).length = Tmsg)
    ∧ ((setKey ts.chunks i msg.content).length ≠ Tmsg →
        getKey (handleIncomingChunk st msg).incomingChunks tid
          = some { chunks := setKey ts.chunks i msg.content, total := ts.total }) := by
  have hcur : (getKey st.incomingChunks tid).getD { chunks := [], total := Tmsg } = ts := by
    rw [hent]; rfl
  have hstep := handleIncomingChunk_step st msg tid i Tmsg ts htid hidx htot hcur
  refine ⟨getKey_setKey_self _ _ _, ?_, ?_⟩
  · rw [hstep]
    by_cases hc : (setKey ts.chunks i msg.content).length = Tmsg
    · rw [if_pos hc]
      refine iff_of_true ?_ hc
      intro h
      have hl := congrArg List.length h
      simp at hl
    · rw [if_neg hc]
      exact iff_of_false (fun h => h rfl) hc
  · intro hc
    rw [hstep, if_neg hc]
    exact getKey_setKey_self _ _ _

def c4m1 : ChatMessage :=
  { id := emptyStr, senderId := sampleSender, type := .CHUNK, content := .bin [1],
    timestamp := 0, fileName := some sampleMp4, transferId := some sampleTid,
    chunkIndex := some 0, totalChunks := some 5 }

def c4m2 : ChatMessage :=
  { id := emptyStr, senderId := sampleSender, type := .CHUNK, content := .bin [2],
    timestamp := 0, fileName := some sampleMp4, transferId := some sampleTid,
    chunkIndex := some 1, totalChunks := some 2 }

/-- Claim C4 as stated fails: the transfer record is created with total 5
by the first chunk, yet the second chunk with the mismatching totalChunks
field 2 is written (it is not rejected) and even completes the transfer —
a completed message is emitted. -/
theorem spec_C4_counterexample :
    (handleIncomingChunk emptySt c4m1).incomingChunks
        = [(sampleTid, { chunks := [(0, MsgContent.bin [1])], total := 5 })]
    ∧ c4m2.totalChunks = some 2
    ∧ ([c4m1, c4m2].foldl handleIncomingChunk emptySt).messages.length = 1 := by
  refine ⟨by decide, rfl, by decide⟩

/-- Witness for spec_C4 at the concrete mismatching-transfer state. -/
theorem spec_C4_witness :
    getKey (setKey [(0, MsgContent.bin [1])] 1 c4m2.content) 1 = some c4m2.content
    ∧ ((handleIncomingChunk (handleIncomingChunk emptySt c4m1) c4m2).messages
        ≠ (handleIncomingChunk emptySt c4m1).messages
      ↔ (setKey [(0, MsgContent.bin [1])] 1 c4m2.content).length = 2)
    ∧ ((setKey [(0, MsgContent.bin [1])] 1 c4m2.content).length ≠ 2 →
        getKey (handleIncomingChunk (handleIncomingChunk emptySt c4m1) c4m2).incomingChunks
            sampleTid
          = some { chunks := setKey [(0, MsgContent.bin [1])] 1 c4m2.content, total := 5 }) :=
  spec_C4 (handleIncomingChunk emptySt c4m1) c4m2 sampleTid 1 2
    { chunks := [(0, MsgContent.bin [1])], total := 5 } (by decide) rfl rfl rfl

/-! ## Claim C5 -/

/-- The close handler installed by setupDataConnection (src/App.tsx lines
111-114): it logs and sets the status to DISCONNECTED — nothing else.  It
does not touch incomingChunks, transferProgress or messages. -/
def onConnClose (st : AppSt) : AppSt := { st with status := .DISCONNECTED }

/-- Claim C5, amended: when the session's close signal arrives while an
inbound transfer is still incomplete, the handler only sets the status to
DISCONNECTED; the partial transfer state is RETAINED (not discarded), its
transfer-progress entry is RETAINED (not removed), and no completed
message is appended by the close transition (and none can follow, as a
closed session delivers no further chunks). -/
theorem spec_C5 (st : AppSt) (tid : String) (ts : TransferSt)
    (hent : getKey st.incomingChunks tid = some ts)
    (_hinc : ts.chunks.length < ts.total) :
    (onConnClose st).status = .DISCONNECTED
    ∧ getKey (onConnClose st).incomingChunks tid = some ts
    ∧ getKey (onConnClose st).transferProgress tid = getKey st.transferProgress tid
    ∧ (onConnClose st).messages = st.messages :=
  ⟨rfl, hent, rfl, rfl⟩

def c5m1 : ChatMessage :=
  { id := emptyStr, senderId := sampleSender, type := .CHUNK, content := .bin [6],
    timestamp := 0, fileName := some sampleMp4, transferId := some sampleTid,
    chunkIndex := some 0, totalChunks := some 10 }

/-- Claim C5 as stated fails: with an incomplete transfer pending (1 of 10
chunks received), the close handler leaves the partial transfer state in
place and does not remove the transfer-progress entry. -/
theorem spec_C5_counterexample :
    getKey (onConnClose (handleIncomingChunk emptySt c5m1)).incomingChunks sampleTid
        = some { chunks := [(0, MsgContent.bin [6])], total := 10 }
    ∧ getKey (onConnClose (handleIncomingChunk emptySt c5m1)).transferProgress sampleTid
        = some 10 := by
  refine ⟨by decide, by decide⟩

/-- Witness for spec_C5 at the concrete partial-transfer state. -/
theorem spec_C5_witness :
    (onConnClose (handleIncomingChunk emptySt c5m1)).status = ConnectionStatus.DISCONNECTED
    ∧ getKey (onConnClose (handleIncomingChunk emptySt c5m1)).incomingChunks sampleTid
        = some { chunks := [(0, MsgContent.bin [6])], total := 10 }
    ∧ getKey (onConnClose (handleIncomingChunk emptySt c5m1)).transferProgress sampleTid
        = getKey (handleIncomingChunk emptySt c5m1).transferProgress sampleTid
    ∧ (onConnClose (handleIncomingChunk emptySt c5m1)).messages
        = (handleIncomingChunk emptySt c5m1).messages :=
  spec_C5 (handleIncomingChunk emptySt c5m1) sampleTid
    { chunks := [(0, MsgContent.bin [6])], total := 10 } (by decide) (by decide)

/-! ## Claim C6 -/

/-- The chunk loop of sendFile in src/App.tsx (lines 207-230), modelled by
its iteration count: the body unconditionally hands chunk i to
connRef.current.send — it contains NO open check, so the emitted indices
do not depend on the connection state at all.  rem is the number of
remaining iterations, i the current chunk index. -/
def sendLoopV1Aux : Nat → Nat → List Nat
  | 0, _ => []
  | rem + 1, i => i :: sendLoopV1Aux rem (i + 1)

def sendLoopV1 (total : Nat) : List Nat := sendLoopV1Aux total 0

/-- The chunk loop of sendFile in src/unnamed/part_001 (lines 331-344):
each iteration first checks connRef.current?.open and breaks out of the
loop when the connection is not open.  openAt i gives the open flag of
the connection when iteration i runs. -/
def sendLoopP1Aux (openAt : Nat → Bool) : Nat → Nat → List Nat
  | 0, _ => []
  | rem + 1, i => if openAt i then i :: sendLoopP1Aux openAt rem (i + 1) else []

def sendLoopP1 (openAt : Nat → Bool) (total : Nat) : List Nat := sendLoopP1Aux openAt total 0

theorem sendLoopP1Aux_mem_open (openAt : Nat → Bool) :
    ∀ (rem i : Nat), ∀ j ∈ sendLoopP1Aux openAt rem i, openAt j = true := by
  intro rem
  induction rem with
  | zero => intro i j hj; simp [sendLoopP1Aux] at hj
  | succ n ih =>
    intro i j hj
    rw [sendLoopP1Aux] at hj
    by_cases ho : openAt i
    · rw [if_pos ho] at hj
      rcases List.mem_cons.mp hj with h | h
      · subst h; exact ho
      · exact ih (i + 1) j h
    · rw [if_neg ho] at hj
      simp at hj

theorem sendLoopV1Aux_eq_range' :
    ∀ (rem i : Nat), sendLoopV1Aux rem i = List.range' i rem := by
  intro rem
  induction rem with
  | zero => intro i; rfl
  | succ n ih => intro i; rw [sendLoopV1Aux, List.range'_succ, ih]

/-- Claim C6, amended: in the sendFile loop of src/unnamed/part_001, once
the connection is closed (openAt is false from iteration k on), no chunk
with index ≥ k is ever handed to the transport — the loop aborts with no
resend.  The sendFile loop of src/App.tsx, by contrast, emits every index
0..totalChunks-1 regardless of the connection state (it has no open
check); see the counterexample. -/
theorem spec_C6 :
    (∀ (openAt : Nat → Bool) (total k : Nat),
      (∀ j, k ≤ j → openAt j = false) →
      ∀ j ∈ sendLoopP1 openAt total, j < k)
    ∧ (∀ total : Nat, sendLoopV1 total = List.range total) := by
  constructor
  · intro openAt total k hclosed j hj
    by_contra hge
    push_neg at hge
    have hopen := sendLoopP1Aux_mem_open openAt total 0 j hj
    rw [hclosed j hge] at hopen
    exact Bool.false_ne_true hopen
  · intro total
    rw [sendLoopV1, sendLoopV1Aux_eq_range', List.range_eq_range']

/-- Claim C6 fails on the sendFile loop of src/App.tsx: with a 3-chunk
transfer whose connection is open only during iteration 0 (closed from
iteration 1 on), the loop still hands chunks 1 and 2 to the transport:
the emitted indices are always 0, 1, 2, openness notwithstanding. -/
theorem spec_C6_counterexample :
    sendLoopV1 3 = [0, 1, 2]
    ∧ ∃ j ∈ sendLoopV1 3, (fun i => decide (i = 0)) j = false := by
  refine ⟨rfl, by decide⟩

/-- Witness for spec_C6 with the connection closed from iteration 1 on. -/
theorem spec_C6_witness :
    (∀ j, 1 ≤ j → (fun i => decide (i = 0)) j = false)
    ∧ ∀ j ∈ sendLoopP1 (fun i => decide (i = 0)) 3, j < 1 := by
  refine ⟨?_, ?_⟩
  · intro j hj; simp; omega
  · exact spec_C6.1 (fun i => decide (i = 0)) 3 1 (by intro j hj; simp; omega)

/-! ## Claim C7 -/

/-- A data-connection handle: its peer and its open flag. -/
structure Conn where
  peer : String
  isOpen : Bool
deriving DecidableEq, Repr

/-- Controller-side session state: every handle ever accepted (so the fate
of replaced handles stays observable) and connRef.current as an index into
that list. -/
structure SessSt where
  handles : List Conn
  connRef : Option Nat
deriving DecidableEq, Repr

def initSess : SessSt := { handles := [], connRef := none }

/-- conn.close() on the handle at position r (no-op out of range). -/
def closeAt (l : List Conn) (r : Nat) : List Conn :=
  match l[r]? with
  | some c => l.set r { c with isOpen := false }
  | none => l

/-- setupDataConnection of src/App.tsx (lines 102-109) on accepting a
connection for peer p: connRef.current is simply replaced by the new
handle — the existing handle is NOT closed. -/
def setupDataConnectionV1 (st : SessSt) (p : String) : SessSt :=
  { handles := st.handles ++ [{ peer := p, isOpen := true }],
    connRef := some st.handles.length }

/-- The guard of setupDataConnection in src/unnamed/part_001: if
connRef.current exists and is open, close it (the result is the handle
list after the guard has run). -/
def replaceTarget (st : SessSt) : List Conn :=
  match st.connRef with
  | some r =>
    match st.handles[r]? with
    | some c => if c.isOpen then closeAt st.handles r else st.handles
    | none => st.handles
  | none => st.handles

/-- setupDataConnection of src/unnamed/part_001 (lines 125-131): when
connRef.current exists and is open it is closed first, then replaced. -/
def setupDataConnectionP1 (st : SessSt) (p : String) : SessSt :=
  { handles := replaceTarget st ++ [{ peer := p, isOpen := true }],
    connRef := some (replaceTarget st).length }

theorem replaceTarget_none (st : SessSt) (h : st.connRef = none) :
    replaceTarget st = st.handles := by
  unfold replaceTarget; rw [h]

theorem replaceTarget_miss (st : SessSt) (r : Nat) (h1 : st.connRef = some r)
    (h2 : st.handles[r]? = none) : replaceTarget st = st.handles := by
  unfold replaceTarget; rw [h1]; simp only []; rw [h2]

theorem replaceTarget_closed (st : SessSt) (r : Nat) (c : Conn) (h1 : st.connRef = some r)
    (h2 : st.handles[r]? = some c) (h3 : c.isOpen = false) :
    replaceTarget st = st.handles := by
  unfold replaceTarget; rw [h1]; simp only []; rw [h2]; simp only []; rw [h3]; simp

theorem replaceTarget_open (st : SessSt) (r : Nat) (c : Conn) (h1 : st.connRef = some r)
    (h2 : st.handles[r]? = some c) (h3 : c.isOpen = true) :
    replaceTarget st = closeAt st.handles r := by
  unfold replaceTarget; rw [h1]; simp only []; rw [h2]; simp only []; rw [h3]; simp

def openCount (l : List Conn) : Nat := (l.filter (fun c => c.isOpen)).length

/-- Controller invariant: only the handle connRef points at may be open. -/
def sessInv (st : SessSt) : Prop :=
  ∀ i c, st.handles[i]? = some c → c.isOpen = true → st.connRef = some i

theorem openCount_eq_zero (l : List Conn) (h : ∀ c ∈ l, c.isOpen = false) :
    openCount l = 0 := by
  unfold openCount
  rw [List.length_eq_zero, List.filter_eq_nil_iff]
  intro c hc
  simp [h c hc]

theorem openCount_append (a b : List Conn) :
    openCount (a ++ b) = openCount a + openCount b := by
  unfold openCount
  rw [List.filter_append, List.length_append]

theorem closeAt_length (l : List Conn) (r : Nat) : (closeAt l r).length = l.length := by
  unfold closeAt
  cases h : l[r]? with
  | none => rfl
  | some c => simp

theorem closeAt_eq (l : List Conn) (r : Nat) (c : Conn) (h : l[r]? = some c) :
    closeAt l r = l.set r { c with isOpen := false } := by
  unfold closeAt; rw [h]

/-- After the part_001 guard has run, every pre-existing handle is closed. -/
theorem setupP1_closes_all (st : SessSt) (hinv : sessInv st) :
    ∀ c ∈ replaceTarget st, c.isOpen = false := by
  intro c hc
  by_contra hopen
  rw [Bool.not_eq_false] at hopen
  cases hcr : st.connRef with
  | none =>
    rw [replaceTarget_none st hcr] at hc
    rcases List.mem_iff_getElem?.mp hc with ⟨i, hi⟩
    have h := hinv i c hi hopen
    rw [hcr] at h
    exact Option.noConfusion h
  | some r =>
    cases hr : st.handles[r]? with
    | none =>
      rw [replaceTarget_miss st r hcr hr] at hc
      rcases List.mem_iff_getElem?.mp hc with ⟨i, hi⟩
      have h := hinv i c hi hopen
      rw [hcr] at h
      have hir : i = r := (Option.some_injective _ h).symm
      subst hir
      rw [hi] at hr
      exact Option.noConfusion hr
    | some c₀ =>
      by_cases ho : c₀.isOpen = true
      · rw [replaceTarget_open st r c₀ hcr hr ho, closeAt_eq st.handles r c₀ hr] at hc
        rcases List.mem_iff_getElem?.mp hc with ⟨i, hi⟩
        have hrlt : r < st.handles.length := by
          rcases List.getElem?_eq_some.mp hr with ⟨hl, _⟩; exact hl
        by_cases hir : i = r
        · subst hir
          rw [List.getElem?_set_self hrlt] at hi
          have hcc : c = { c₀ with isOpen := false } := (Option.some_injective _ hi).symm
          rw [hcc] at hopen
          simp at hopen
        · rw [List.getElem?_set_ne (fun he => hir he.symm)] at hi
          have h := hinv i c hi hopen
          rw [hcr] at h
          exact hir (Option.some_injective _ h).symm
      · rw [Bool.not_eq_true] at ho
        rw [replaceTarget_closed st r c₀ hcr hr ho] at hc
        rcases List.mem_iff_getElem?.mp hc with ⟨i, hi⟩
        have h := hinv i c hi hopen
        rw [hcr] at h
        have hir : i = r := (Option.some_injective _ h).symm
        subst hir
        rw [hi] at hr
        have hcc : c = c₀ := Option.some_injective _ hr
        rw [hcc, ho] at hopen
        exact Bool.false_ne_true hopen

theorem setupP1_step (st : SessSt) (p : String) (hinv : sessInv st) :
    sessInv (setupDataConnectionP1 st p)
    ∧ openCount (setupDataConnectionP1 st p).handles = 1 := by
  have hall := setupP1_closes_all st hinv
  constructor
  · intro i c hi hopen
    have hi' : (replaceTarget st ++ [{ peer := p, isOpen := true }])[i]? = some c := hi
    by_cases hlt : i < (replaceTarget st).length
    · rw [List.getElem?_append, if_pos hlt] at hi'
      have hmem : c ∈ replaceTarget st := List.mem_iff_getElem?.mpr ⟨i, hi'⟩
      rw [hall c hmem] at hopen
      exact absurd hopen (by simp)
    · rw [List.getElem?_append, if_neg hlt] at hi'
      push_neg at hlt
      rcases List.getElem?_eq_some.mp hi' with ⟨hl, _⟩
      simp only [List.length_cons, List.length_nil] at hl
      show some (replaceTarget st).length = some i
      congr 1
      omega
  · show openCount (replaceTarget st ++ [{ peer := p, isOpen := true }]) = 1
    rw [openCount_append, openCount_eq_zero _ hall]
    rfl

theorem setupP1_fold (peers : List String) :
    ∀ st : SessSt, sessInv st → openCount st.handles ≤ 1 →
      sessInv (peers.foldl setupDataConnectionP1 st)
      ∧ openCount (peers.foldl setupDataConnectionP1 st).handles ≤ 1 := by
  induction peers with
  | nil => intro st h1 h2; exact ⟨h1, h2⟩
  | cons p rest ih =>
    intro st h1 _
    rw [List.foldl_cons]
    obtain ⟨hs1, hs2⟩ := setupP1_step st p h1
    exact ih _ hs1 (by omega)

/-- Claim C7, amended: in part_001's setupDataConnection, at most one
session handle is open in every state reachable by a sequence of accepted
connections, and accepting a new connection while connRef points at an
open handle closes that older handle before replacing the reference.  In
src/App.tsx's setupDataConnection the older handle is NOT closed — the new
connection merely replaces connRef.current, leaving two open handles; see
the counterexample. -/
theorem spec_C7 :
    (∀ peers : List String,
      openCount ((peers.foldl setupDataConnectionP1 initSess).handles) ≤ 1)
    ∧ (∀ (st : SessSt) (r : Nat) (c : Conn) (p : String),
      st.connRef = some r → st.handles[r]? = some c → c.isOpen = true →
      (setupDataConnectionP1 st p).handles[r]? = some { c with isOpen := false }
      ∧ (setupDataConnectionP1 st p).connRef ≠ some r) := by
  constructor
  · intro peers
    exact (setupP1_fold peers initSess (by intro i c hi _; simp [initSess] at hi) (by decide)).2
  · intro st r c p hcr hr hopen
    have hrlt : r < st.handles.length := by
      rcases List.getElem?_eq_some.mp hr with ⟨hl, _⟩; exact hl
    have hrt : replaceTarget st = closeAt st.handles r :=
      replaceTarget_open st r c hcr hr hopen
    constructor
    · show (replaceTarget st ++ [{ peer := p, isOpen := true }])[r]? = _
      rw [List.getElem?_append, hrt, closeAt_eq st.handles r c hr]
      rw [if_pos (by rw [List.length_set]; exact hrlt)]
      rw [List.getElem?_set_self hrlt]
    · show some (replaceTarget st).length ≠ some r
      rw [hrt, closeAt_length]
      intro he
      have hle := Option.some_injective _ he
      omega

def peerA : String := "A"
def peerB : String := "B"

/-- Claim C7 as stated fails on src/App.tsx: after accepting a session
for peer A and then one for peer B, TWO handles are open — the A handle
was never closed when the B session replaced it. -/
theorem spec_C7_counterexample :
    openCount ((setupDataConnectionV1 (setupDataConnectionV1 initSess peerA) peerB).handles) = 2
    ∧ (setupDataConnectionV1 (setupDataConnectionV1 initSess peerA) peerB).handles
        = [{ peer := peerA, isOpen := true }, { peer := peerB, isOpen := true }] := by
  refine ⟨by decide, by decide⟩

/-- Witness for spec_C7 at the peers A then B. -/
theorem spec_C7_witness :
    openCount (([peerA, peerB].foldl setupDataConnectionP1 initSess).handles) ≤ 1
    ∧ ((setupDataConnectionP1
          { handles := [{ peer := peerA, isOpen := true }], connRef := some 0 } peerB).handles[0]?
        = some { peer := peerA, isOpen := false }
      ∧ (setupDataConnectionP1
          { handles := [{ peer := peerA, isOpen := true }], connRef := some 0 } peerB).connRef
        ≠ some 0) := by
  refine ⟨spec_C7.1 [peerA, peerB], ?_⟩
  exact spec_C7.2 { handles := [{ peer := peerA, isOpen := true }], connRef := some 0 } 0
    { peer := peerA, isOpen := true } peerB rfl rfl rfl

/-! ## Call negotiation (src/App.tsx lines 121-141, 247-320) -/

def rejectStr : String := "REJECT"

/-- endCall (src/App.tsx lines 312-320): close callRef.current if set
(closing an already closed handle leaves it closed), stop the local media
tracks if a local stream is held, and reset the stream references and the
call flags.  The emitted actions record the close and the track stops. -/
def endCall (st : AppSt) : AppSt × List Action :=
  let a1 : List Action := match st.call with
    | some _ => [Action.closeCall]
    | none => []
  let a2 : List Action := match st.localStream with
    | some _ => [Action.stopTracks]
    | none => []
  ({ st with call := st.call.map (fun _ => false),
             localStream := none, remoteStream := none,
             isInCall := false, isIncomingCall := false }, a1 ++ a2)

/-- startCallNegotiation (src/App.tsx lines 247-259): enter the caller
role and send a CALL_REQUEST envelope. -/
def startCallNegotiation (st : AppSt) : AppSt × List Action :=
  ({ st with isInCall := true, isIncomingCall := false }, [Action.sendCallRequest])

/-- initiateWebRTCCall (src/App.tsx lines 285-310): attempt to acquire
local media (grant is the getUserMedia outcome); on success store the
stream and invoke the media-call transport; on failure run endCall. -/
def initiateWebRTCCall (st : AppSt) (grant : Option Nat) : AppSt × List Action :=
  match grant with
  | some s =>
    ({ st with localStream := some s, call := some true },
     [Action.acquireMedia, Action.invokeMediaCall])
  | none =>
    let q := endCall st
    (q.1, Action.acquireFail :: q.2)

/-- The conn.on('data') dispatcher of setupDataConnection (src/App.tsx
lines 121-141): CHUNK goes to handleIncomingChunk, CALL_REQUEST marks an
incoming call, CALL_RESPONSE with content ACCEPT triggers the
asynchronous initiateWebRTCCall (recorded as Action.initCall), any other
CALL_RESPONSE runs endCall, and everything else is appended to the
message stream. -/
def dispatchData (st : AppSt) (msg : ChatMessage) : AppSt × List Action :=
  if msg.type = .CHUNK then
    (handleIncomingChunk st msg, [])
  else if msg.type = .CALL_REQUEST then
    ({ st with activeTargetId := msg.senderId, isIncomingCall := true, isInCall := true }, [])
  else if msg.type = .CALL_RESPONSE then
    if msg.content = .str acceptStr then
      (st, [Action.initCall])
    else
      endCall st
  else
    ({ st with messages := st.messages ++ [msg] }, [])

theorem endCall_actions (st : AppSt) :
    ∀ a ∈ (endCall st).2, a = Action.closeCall ∨ a = Action.stopTracks := by
  intro a ha
  rcases hc : st.call with _ | b <;> rcases hl : st.localStream with _ | s <;>
    simp [endCall, hc, hl] at ha <;> simp [ha]

/-! ## Claim C8 -/

/-- Claim C8: on the caller side, the media acquisition and media-call
invocation (initiateWebRTCCall) are triggered exactly by receiving a
CALL_RESPONSE envelope with content ACCEPT — no other dispatch path
acquires media; and on any other CALL_RESPONSE content the dispatcher
runs endCall, leaving the negotiation idle (isInCall false, no local
stream) without ever acquiring media. -/
theorem spec_C8 :
    (∀ (st : AppSt) (msg : ChatMessage),
      Action.initCall ∈ (dispatchData st msg).2
        ↔ (msg.type = .CALL_RESPONSE ∧ msg.content = .str acceptStr))
    ∧ (∀ (st : AppSt) (msg : ChatMessage), Action.acquireMedia ∉ (dispatchData st msg).2)
    ∧ (∀ (st : AppSt) (g : Option Nat),
        (Action.acquireMedia ∈ (initiateWebRTCCall st g).2 ↔ g.isSome = true)
        ∧ (Action.invokeMediaCall ∈ (initiateWebRTCCall st g).2 ↔ g.isSome = true))
    ∧ (∀ (st : AppSt) (msg : ChatMessage),
        msg.type = .CALL_RESPONSE → msg.content ≠ .str acceptStr →
        (dispatchData st msg).1.isInCall = false
        ∧ (dispatchData st msg).1.localStream = none
        ∧ Action.initCall ∉ (dispatchData st msg).2) := by
  have hnotresp : MessageType.CHUNK ≠ MessageType.CALL_RESPONSE := by decide
  refine ⟨?_, ?_, ?_, ?_⟩
  · intro st msg
    unfold dispatchData
    by_cases h1 : msg.type = .CHUNK
    · simp [h1]
    · by_cases h2 : msg.type = .CALL_REQUEST
      · simp [h1, h2]
      · by_cases h3 : msg.type = .CALL_RESPONSE
        · by_cases h4 : msg.content = .str acceptStr
          · simp [h1, h2, h3, h4]
          · simp only [if_neg h1, if_neg h2, if_pos h3, if_neg h4]
            constructor
            · intro hmem
              rcases endCall_actions st _ hmem with h | h <;> exact absurd h (by decide)
            · intro ⟨_, hc⟩; exact absurd hc h4
        · simp [h1, h2, h3]
  · intro st msg
    unfold dispatchData
    by_cases h1 : msg.type = .CHUNK
    · simp [h1]
    · by_cases h2 : msg.type = .CALL_REQUEST
      · simp [h1, h2]
      · by_cases h3 : msg.type = .CALL_RESPONSE
        · by_cases h4 : msg.content = .str acceptStr
          · simp [h1, h2, h3, h4]
          · simp only [if_neg h1, if_neg h2, if_pos h3, if_neg h4]
            intro hmem
            rcases endCall_actions st _ hmem with h | h <;> exact absurd h (by decide)
        · simp [h1, h2, h3]
  · intro st g
    cases g with
    | none =>
      constructor
      · simp only [initiateWebRTCCall, Option.isSome_none]
        constructor
        · intro hmem
          rcases List.mem_cons.mp hmem with h | h
          · exact absurd h (by decide)
          · rcases endCall_actions st _ h with h' | h' <;> exact absurd h' (by decide)
        · intro h; exact absurd h (by decide)
      · simp only [initiateWebRTCCall, Option.isSome_none]
        constructor
        · intro hmem
          rcases List.mem_cons.mp hmem with h | h
          · exact absurd h (by decide)
          · rcases endCall_actions st _ h with h' | h' <;> exact absurd h' (by decide)
        · intro h; exact absurd h (by decide)
    | some s => constructor <;> simp [initiateWebRTCCall]
  · intro st msg h3 h4
    have h1 : msg.type ≠ .CHUNK := by rw [h3]; decide
    have h2 : msg.type ≠ .CALL_REQUEST := by rw [h3]; decide
    unfold dispatchData
    rw [if_neg h1, if_neg h2, if_pos h3, if_neg h4]
    refine ⟨rfl, rfl, ?_⟩
    intro hmem
    rcases endCall_actions st _ hmem with h | h <;> exact absurd h (by decide)

def rejectMsg : ChatMessage :=
  { id := emptyStr, senderId := sampleSender, type := .CALL_RESPONSE,
    content := .str rejectStr, timestamp := 0 }

/-- Witness for spec_C8: a REJECT response received in the caller state
reached by startCallNegotiation returns the negotiation to idle without
media acquisition. -/
theorem spec_C8_witness :
    rejectMsg.type = MessageType.CALL_RESPONSE
    ∧ rejectMsg.content ≠ MsgContent.str acceptStr
    ∧ (dispatchData (startCallNegotiation emptySt).1 rejectMsg).1.isInCall = false
    ∧ (dispatchData (startCallNegotiation emptySt).1 rejectMsg).1.localStream = none
    ∧ Action.initCall ∉ (dispatchData (startCallNegotiation emptySt).1 rejectMsg).2 := by
  have h := spec_C8.2.2.2 (startCallNegotiation emptySt).1 rejectMsg rfl (by decide)
  exact ⟨rfl, by decide, h.1, h.2.1, h.2.2⟩

/-! ## Claim C9 -/

/-- The exit paths of a call: remote close, media-call error, local
hang-up, media-acquisition failure.  Each of the corresponding handlers
in src/App.tsx (lines 80-87 for the callee side, 301-305 for the caller
side, line 338 for the overlay hang-up, 278-282 and 306-309 for media
failure) invokes endCall. -/
inductive ExitEv where
  | remoteClose
  | callError
  | localHangup
  | mediaFailure
deriving DecidableEq, Repr

def handleExit (st : AppSt) (_e : ExitEv) : AppSt × List Action := endCall st

def runExits : AppSt → List ExitEv → AppSt × List Action
  | st, [] => (st, [])
  | st, e :: es =>
    let p := handleExit st e
    let q := runExits p.1 es
    (q.1, p.2 ++ q.2)

def countStops (acts : List Action) : Nat :=
  (acts.filter (fun a => decide (a = Action.stopTracks))).length

theorem countStops_append (a b : List Action) :
    countStops (a ++ b) = countStops a + countStops b := by
  unfold countStops
  rw [List.filter_append, List.length_append]

theorem countStops_endCall (st : AppSt) :
    countStops (endCall st).2 = if st.localStream.isSome then 1 else 0 := by
  rcases hc : st.call with _ | b <;> rcases hl : st.localStream with _ | s <;>
    simp [endCall, countStops, hc, hl]

theorem endCall_localStream (st : AppSt) : (endCall st).1.localStream = none := rfl

theorem runExits_stops_zero (es : List ExitEv) :
    ∀ st : AppSt, st.localStream = none → countStops (runExits st es).2 = 0 := by
  induction es with
  | nil => intro st _; rfl
  | cons e rest ih =>
    intro st hls
    show countStops ((endCall st).2 ++ (runExits (endCall st).1 rest).2) = 0
    rw [countStops_append, countStops_endCall, hls, ih _ (endCall_localStream st)]
    rfl

/-- Claim C9: over every call lifecycle and every nonempty sequence of
exit events (remote close, error, hang-up, media failure — all of which
funnel into endCall), the locally acquired media tracks are stopped
exactly once when a local stream was held, and zero times otherwise;
running the teardown again is a no-op on the state; and invoking endCall
when no call is active leaves the state unchanged and emits nothing. -/
theorem spec_C9 :
    (∀ (st : AppSt) (evs : List ExitEv), evs ≠ [] →
      countStops (runExits st evs).2 = (if st.localStream.isSome then 1 else 0))
    ∧ (∀ st : AppSt, (endCall (endCall st).1).1 = (endCall st).1)
    ∧ (∀ st : AppSt, st.call = none → st.localStream = none → st.remoteStream = none →
        st.isInCall = false → st.isIncomingCall = false →
        (endCall st).1 = st ∧ (endCall st).2 = []) := by
  refine ⟨?_, ?_, ?_⟩
  · intro st evs hne
    cases evs with
    | nil => exact absurd rfl hne
    | cons e es =>
      show countStops ((endCall st).2 ++ (runExits (endCall st).1 es).2) = _
      rw [countStops_append, countStops_endCall,
        runExits_stops_zero es _ (endCall_localStream st)]
      omega
  · intro st
    obtain ⟨ms, tp, ic, sts, atid, inc, iic, ls, rs, call⟩ := st
    cases call <;> rfl
  · intro st h1 h2 h3 h4 h5
    obtain ⟨ms, tp, ic, sts, atid, inc, iic, ls, rs, call⟩ := st
    simp only at h1 h2 h3 h4 h5
    subst h1; subst h2; subst h3; subst h4; subst h5
    exact ⟨rfl, rfl⟩

/-- A state in the middle of an active call: media held, call open. -/
def activeCallSt : AppSt :=
  { emptySt with
      isInCall := true
      localStream := some 1
      remoteStream := some 2
      call := some true }

/-- Witness for spec_C9: three stacked exit events on an active call stop
the tracks exactly once, and tearing down the idle state is a no-op. -/
theorem spec_C9_witness :
    ([ExitEv.remoteClose, ExitEv.callError, ExitEv.localHangup] ≠ ([] : List ExitEv))
    ∧ countStops (runExits activeCallSt
        [ExitEv.remoteClose, ExitEv.callError, ExitEv.localHangup]).2
      = (if activeCallSt.localStream.isSome then 1 else 0)
    ∧ (endCall emptySt).1 = emptySt ∧ (endCall emptySt).2 = [] := by
  refine ⟨by decide, ?_, ?_, ?_⟩
  · exact spec_C9.1 activeCallSt _ (by decide)
  · exact (spec_C9.2.2 emptySt rfl rfl rfl rfl rfl).1
  · exact (spec_C9.2.2 emptySt rfl rfl rfl rfl rfl).2

/-! ## Claim C10 -/

theorem handleIncomingChunk_messages (st : AppSt) (msg : ChatMessage) :
    (handleIncomingChunk st msg).messages = st.messages
    ∨ ∃ ch, (handleIncomingChunk st msg).messages
        = st.messages ++ [completedMsg msg ch] := by
  simp only [handleIncomingChunk]
  split
  · right; exact ⟨_, rfl⟩
  · left; rfl

/-- Claim C10: whenever handleIncomingChunk emits a completed message,
its type is IMAGE exactly when the transfer's fileName is present and
ends, case-insensitively, in .jpg, .jpeg, .png or .gif; in every other
case — including an absent fileName — the assembled payload is emitted
as VIDEO_FILE, never as any other message kind. -/
theorem spec_C10 (st : AppSt) (msg : ChatMessage)
    (hgrow : (handleIncomingChunk st msg).messages ≠ st.messages) :
    ∃ fm, (handleIncomingChunk st msg).messages = st.messages ++ [fm]
      ∧ fm.type = classifyByName msg.fileName
      ∧ (fm.type = .IMAGE ↔ ∃ n, msg.fileName = some n ∧ hasImageExt n = true)
      ∧ (fm.type = .IMAGE ∨ fm.type = .VIDEO_FILE) := by
  rcases handleIncomingChunk_messages st msg with h | ⟨ch, h⟩
  · exact absurd h hgrow
  · refine ⟨completedMsg msg ch, h, rfl, ?_, ?_⟩
    · cases hf : msg.fileName with
      | none => simp [completedMsg, classifyByName, hf]
      | some n =>
        by_cases hx : hasImageExt n
        · simp [completedMsg, classifyByName, hf, hx]
        · simp [completedMsg, classifyByName, hf, hx]
    · cases hf : msg.fileName with
      | none => right; simp [completedMsg, classifyByName, hf]
      | some n =>
        by_cases hx : hasImageExt n
        · left; simp [completedMsg, classifyByName, hf, hx]
        · right; simp [completedMsg, classifyByName, hf, hx]

def c10m : ChatMessage :=
  { id := emptyStr, senderId := sampleSender, type := .CHUNK, content := .bin [8],
    timestamp := 0, fileName := some samplePng, transferId := some sampleTid,
    chunkIndex := some 0, totalChunks := some 1 }

/-- Witness for spec_C10 at a completing transfer named a.PNG. -/
theorem spec_C10_witness :
    (handleIncomingChunk emptySt c10m).messages ≠ emptySt.messages
    ∧ ∃ fm, (handleIncomingChunk emptySt c10m).messages = emptySt.messages ++ [fm]
      ∧ fm.type = classifyByName c10m.fileName
      ∧ (fm.type = .IMAGE ↔ ∃ n, c10m.fileName = some n ∧ hasImageExt n = true)
      ∧ (fm.type = .IMAGE ∨ fm.type = .VIDEO_FILE) := by
  refine ⟨by decide, spec_C10 emptySt c10m (by decide)⟩

end P2P
